import Mathlib

/-!
Verification of the hobodraft structured-document editor.

The definitions below are a shallow embedding of the editing, analysis and
export logic of `src/pages/Editor.tsx` (and, for the rhyme scheme, of the
design specification, since no rhyme code exists in the repository sources).
Strings model JavaScript strings restricted to their character sequences;
JavaScript regular-expression operations are translated into explicit
character-list recursions with the same semantics on the inputs the program
feeds them.
-/

namespace Hobodraft

/-- An element of a document: `interface ScriptElement` in Editor.tsx. -/
structure Elem where
  id : String
  type : String
  content : String
deriving DecidableEq, Repr

instance : Inhabited Elem := ⟨⟨"", "", ""⟩⟩

/-- The three genres recognised by `getCategory` in Editor.tsx. -/
inductive Category where
  | screenplay
  | poetry
  | fiction
deriving DecidableEq, Repr

/-- `SCREENPLAY_TYPES` from Editor.tsx. -/
def SCREENPLAY_TYPES : List String :=
  ["scene-heading", "action", "character", "dialogue", "parenthetical", "transition"]

/-- `SCREENPLAY_NEXT` from Editor.tsx, as an association list. -/
def SCREENPLAY_NEXT : List (String × String) :=
  [("scene-heading", "action"), ("action", "character"), ("character", "dialogue"),
   ("dialogue", "character"), ("parenthetical", "dialogue"), ("transition", "scene-heading")]

/-- `POETRY_TYPES` from Editor.tsx. -/
def POETRY_TYPES : List String :=
  ["poem-title", "stanza", "line", "couplet", "attribution"]

/-- `POETRY_NEXT` from Editor.tsx. -/
def POETRY_NEXT : List (String × String) :=
  [("poem-title", "line"), ("stanza", "line"), ("line", "line"),
   ("couplet", "couplet"), ("attribution", "line")]

/-- `FICTION_TYPES` from Editor.tsx. -/
def FICTION_TYPES : List String :=
  ["chapter-heading", "paragraph", "dialogue-fiction", "break", "epigraph"]

/-- `FICTION_NEXT` from Editor.tsx. -/
def FICTION_NEXT : List (String × String) :=
  [("chapter-heading", "paragraph"), ("paragraph", "paragraph"),
   ("dialogue-fiction", "paragraph"), ("break", "paragraph"), ("epigraph", "paragraph")]

/-- Lower-casing of a string, character by character (ASCII, as the source
only ever compares ASCII type tags and names). Models `toLowerCase()`. -/
def lowerStr (s : String) : String := String.mk (s.data.map Char.toLower)

/-- Upper-casing of a string, character by character. Models `toUpperCase()`. -/
def upperStr (s : String) : String := String.mk (s.data.map Char.toUpper)

/-- `getCategory` from Editor.tsx: classify a script's `type` tag into a genre.
A missing tag (and hence also the falsy empty tag, which matches no branch)
falls back to screenplay. -/
def getCategory (type : Option String) : Category :=
  match type with
  | none => Category.screenplay
  | some s =>
    let t := lowerStr s
    if t = "poetry" ∨ t = "poem" then Category.poetry
    else if t = "fiction" ∨ t = "novel" ∨ t = "short-story" then Category.fiction
    else Category.screenplay

/-- The per-genre grammar: ordered type list and successor map
(`types` and `next` of `getTypeConfig` in Editor.tsx). -/
structure TypeConfig where
  types : List String
  next : List (String × String)

/-- `getTypeConfig` from Editor.tsx. -/
def getTypeConfig (category : Category) : TypeConfig :=
  match category with
  | Category.poetry => { types := POETRY_TYPES, next := POETRY_NEXT }
  | Category.fiction => { types := FICTION_TYPES, next := FICTION_NEXT }
  | Category.screenplay => { types := SCREENPLAY_TYPES, next := SCREENPLAY_NEXT }

/-- JavaScript `Array.prototype.indexOf` on a list of strings:
index of the first occurrence, `-1` when absent. -/
def jsIndexOf : List String → String → Int
  | [], _ => -1
  | a :: as, x =>
    if a = x then 0
    else
      let r := jsIndexOf as x
      if r = -1 then -1 else r + 1

/-- The Tab key's type-cycling step in `handleKeyDown` (Editor.tsx lines
229-234): `curIdx = TYPES.indexOf(el.type)` and the new type is
`TYPES[(curIdx ± 1 + n) % n]` (`shift` selects the backward direction). -/
def cycleType (c : Category) (shift : Bool) (t : String) : String :=
  let types := (getTypeConfig c).types
  let n : Int := types.length
  let cur : Int := jsIndexOf types t
  let newIdx : Int := if shift then (cur - 1 + n).emod n else (cur + 1).emod n
  types.getD newIdx.toNat ""

/-- `changeType` from Editor.tsx (lines 171-175), restricted to its effect on
the element list: map over the elements, replacing the type of those whose id
matches. -/
def changeType (els : List Elem) (elId newType : String) : List Elem :=
  els.map (fun el => if el.id = elId then { el with type := newType } else el)

/-- The editor's structural state: the element list and the active element's
id and type (the `elements`, `activeId`, `activeType` state of Editor.tsx). -/
structure EditorState where
  elements : List Elem
  activeId : String
  activeType : String
deriving DecidableEq, Repr

/-- The successor type of a freshly created element:
`NEXT_TYPE[el.type] || TYPES[0]` in Editor.tsx (the map's values are all
non-empty, so JavaScript's falsy fallback coincides with the missing-key
fallback). -/
def nextTypeOf (c : Category) (t : String) : String :=
  (List.lookup t (getTypeConfig c).next).getD ((getTypeConfig c).types.headD "")

/-- The Enter key's create-new-element transition in `handleKeyDown`
(Editor.tsx lines 212-228), for a key event on element `el` at `index`, with
autocomplete closed. `touch` is `isMobile()`, `shift` is `e.shiftKey`, and
`newId` stands for the fresh `crypto.randomUUID()`. `splice(index+1, 0, newEl)`
is the clamped insertion `take (index+1) ++ [newEl] ++ drop (index+1)`. -/
def enterKey (c : Category) (touch shift : Bool) (st : EditorState) (el : Elem)
    (index : Nat) (newId : String) : EditorState :=
  if (if touch then shift else !shift) then
    let newEl : Elem := { id := newId, type := nextTypeOf c el.type, content := "" }
    { elements := st.elements.take (index + 1) ++ newEl :: st.elements.drop (index + 1),
      activeId := newEl.id,
      activeType := newEl.type }
  else st

/-- The Backspace merge-delete transition in `handleKeyDown` (Editor.tsx lines
235-247), for a key event on element `el` at `index`: when the element's
content is empty and more than one element exists, remove the elements with
its id and focus `newEls[max 0 (index-1)]`; otherwise the event is not
intercepted. -/
def backspaceKey (st : EditorState) (el : Elem) (index : Nat) : EditorState :=
  if el.content = "" ∧ 1 < st.elements.length then
    let newEls := st.elements.filter (fun x => x.id != el.id)
    let prevIdx := (max 0 ((index : Int) - 1)).toNat
    { elements := newEls,
      activeId := (newEls.getD prevIdx default).id,
      activeType := (newEls.getD prevIdx default).type }
  else st

/-- The element-list effect of the Backspace merge-delete alone, used to state
the document-never-empties invariant over arbitrary sequences of deletes. -/
def deleteMergeEls (els : List Elem) (el : Elem) : List Elem :=
  if el.content = "" ∧ 1 < els.length then els.filter (fun x => x.id != el.id) else els

/-- Bool test for prefixhood of one string on another, via the character
lists. Models JavaScript `s.startsWith(p)`. -/
def strStartsWith (s p : String) : Bool := p.data.isPrefixOf s.data

/-- Bool substring test, via the character lists. -/
def listIncludes (needle : List Char) : List Char → Bool
  | [] => needle.isEmpty
  | c :: rest => needle.isPrefixOf (c :: rest) || listIncludes needle rest

/-- Models JavaScript `hay.includes(needle)`. -/
def strIncludes (hay needle : String) : Bool := listIncludes needle.data hay.data

/-- The autocomplete sub-state of the editor: `autocompleteItems`,
`showAutocomplete` and `autocompleteIndex` in Editor.tsx. -/
structure AutoState where
  items : List String
  isOpen : Bool
  index : Nat
deriving DecidableEq, Repr

/-- `handleInput` from Editor.tsx (lines 177-194): replace the content of the
element with the given id, then recompute the autocomplete state from the
element's (pre-edit) type and the new text. The element is looked up in the
pre-edit list, exactly as the stale `elements` closure is in the source. -/
def handleInput (characters locations : List String) (els : List Elem)
    (elId val : String) (st : AutoState) : List Elem × AutoState :=
  let newEls := els.map (fun e => if e.id = elId then { e with content := val } else e)
  let el := els.find? (fun e => e.id = elId)
  let auto :=
    if el.map Elem.type = some "character" ∧ 0 < val.length then
      let ms := characters.filter
        (fun c => strStartsWith (lowerStr c) (lowerStr val) && lowerStr c != lowerStr val)
      { items := ms, isOpen := decide (0 < ms.length), index := 0 }
    else if el.map Elem.type = some "scene-heading" ∧ 4 < val.length then
      let ms := locations.filter
        (fun l => strIncludes (upperStr val) (String.mk (l.data.take 3)))
      { items := ms.map (fun l => "INT. " ++ l ++ " - DAY"),
        isOpen := decide (0 < ms.length), index := 0 }
    else
      { st with isOpen := false }
  (newEls, auto)

/-- The suggestion list the editor actually presents and navigates: the
dropdown renders only when `showAutocomplete && autocompleteItems.length > 0`
(Editor.tsx line 494). -/
def visibleSuggestions (st : AutoState) : List String :=
  if st.isOpen ∧ 0 < st.items.length then st.items else []

/-- The vowel-or-y character class `[aeiouy]` of the syllable heuristic. -/
def isVowel (c : Char) : Bool :=
  c = 'a' || c = 'e' || c = 'i' || c = 'o' || c = 'u' || c = 'y'

/-- The character class `[laeiouy]` excluded before a silent `e`/`es` by
`countSyllables`' suffix regex. -/
def inLVowel (c : Char) : Bool := c = 'l' || isVowel c

/-- `word.toLowerCase().replace(/[^a-z]/g, '')` from `countSyllables`. -/
def clean (w : String) : List Char :=
  (w.data.map Char.toLower).filter (fun c => decide ('a' ≤ c) && decide (c ≤ 'z'))

/-- The single anchored replacement
`word.replace(/(?:[^laeiouy]es|ed|[^laeiouy]e)$/, '')` of `countSyllables`:
by leftmost-match semantics the three mutually exclusive cases are a final
`Xes` with `X` outside `[laeiouy]` (three characters removed), a final `ed`
(removed unconditionally), and a final `Xe` with `X` outside `[laeiouy]`
(two characters removed). -/
def stripSuffix (cs : List Char) : List Char :=
  match cs.reverse with
  | 's' :: 'e' :: x :: rest => if inLVowel x then cs else rest.reverse
  | 'd' :: 'e' :: rest => rest.reverse
  | 'e' :: x :: rest => if inLVowel x then cs else rest.reverse
  | _ => cs

/-- `word.replace(/^y/, '')` from `countSyllables`. -/
def stripY : List Char → List Char
  | 'y' :: rest => rest
  | cs => cs

/-- The number of matches of the global regex `/[aeiouy]{1,2}/g`: scan left to
right, each match greedily consuming one or two consecutive vowels. -/
def chunkCount : List Char → Nat
  | [] => 0
  | [c] => if isVowel c then 1 else 0
  | c :: d :: rest =>
    if isVowel c then
      if isVowel d then 1 + chunkCount rest else 1 + chunkCount (d :: rest)
    else chunkCount (d :: rest)

/-- `countSyllables` from Editor.tsx (lines 42-48). -/
def countSyllables (w : String) : Nat :=
  let cs := clean w
  if cs.length ≤ 3 then 1
  else
    let s := stripY (stripSuffix cs)
    let m := chunkCount s
    if m = 0 then 1 else m

/-- The lengths of the maximal vowel-or-y runs of a word, right to left, with
a flag telling whether the word starts with a vowel (so a new head run can be
opened or extended). Supports the specification's per-run reading of the
counting step. -/
def runsAux : List Char → Bool × List Nat
  | [] => (false, [])
  | c :: rest =>
    let p := runsAux rest
    if isVowel c then
      (true,
        match p.1, p.2 with
        | true, l :: ls => (l + 1) :: ls
        | _, _ => 1 :: p.2)
    else (false, p.2)

/-- The specification's counting step: each maximal vowel-or-y run of length
`l` contributes `⌈l / 2⌉` matches of `[aeiouy]{1,2}`. -/
def runSum (cs : List Char) : Nat :=
  ((runsAux cs).2.map (fun l => (l + 1) / 2)).sum

/-- The syllable heuristic exactly as the claim words it: strip a trailing
suffix matching `[^aeiouy]e$` (both characters), or `ed`/`es` preceded by a
non-vowel (the two suffix characters), then a leading `y`, then count the
`[aeiouy]{1,2}` matches of the maximal vowel-or-y runs, minimum 1. -/
def claimStrip (cs : List Char) : List Char :=
  match cs.reverse with
  | 'e' :: x :: rest => if isVowel x then cs else rest.reverse
  | 'd' :: 'e' :: x :: rest => if isVowel x then cs else (x :: rest).reverse
  | 's' :: 'e' :: x :: rest => if isVowel x then cs else (x :: rest).reverse
  | _ => cs

/-- The documented heuristic of claim C3, as stated. -/
def specSyllables (w : String) : Nat :=
  let cs := clean w
  if cs.length ≤ 3 then 1
  else max 1 (runSum (stripY (claimStrip cs)))

/-- The amended heuristic: identical to the claim except that the suffix rule
is the one the source implements (`[^laeiouy]es`, unconditional `ed`, or
`[^laeiouy]e`, the whole match removed). -/
def amendedStrip (cs : List Char) : List Char :=
  match cs.reverse with
  | 's' :: 'e' :: x :: rest => if inLVowel x then cs else rest.reverse
  | 'd' :: 'e' :: rest => rest.reverse
  | 'e' :: x :: rest => if inLVowel x then cs else rest.reverse
  | _ => cs

/-- The documented heuristic of claim C3 with the suffix rule corrected to the
source's. -/
def specSyllablesAmended (w : String) : Nat :=
  let cs := clean w
  if cs.length ≤ 3 then 1
  else max 1 (runSum (stripY (amendedStrip cs)))

/-- Modelled from the spec: the rhyme key of a word, since no rhyme-scheme
code exists under the repository sources (the analysis pipeline of the spec's
section 4.5). The key is the terminal vowel-led suffix — the match of
`[aeiouy][^aeiouy]*$`, i.e. the suffix starting at the last vowel-or-y — with
the last two characters as fallback when the word has no vowel. -/
def rhymeKey (w : String) : String :=
  let cs := w.data
  match cs.reverse.findIdx? isVowel with
  | some j => String.mk (cs.drop (cs.length - 1 - j))
  | none => String.mk (cs.drop (cs.length - 2))

/-- Modelled from the spec: the rhyme scheme of the last words of a poem's
lines. Sequential letters `A`, `B`, `C`, … are assigned to the distinct rhyme
keys in first-seen order, reusing a letter when a key repeats. -/
def rhymeScheme (lastWords : List String) : String :=
  let keys := lastWords.map rhymeKey
  let distinct := keys.foldl (fun acc k => if k ∈ acc then acc else acc ++ [k]) []
  String.mk (keys.map (fun k => Char.ofNat (65 + distinct.indexOf k)))

/-- Sequential concatenation of rendered fragments, as the `out += …`
accumulation of the export functions. -/
def concatStrings : List String → String
  | [] => ""
  | s :: rest => s ++ concatStrings rest

/-- The per-element rendering rule of `exportPlainText` (Editor.tsx lines
392-401). -/
def plainChunk (el : Elem) : String :=
  if el.type = "scene-heading" then "\n---\n" ++ upperStr el.content ++ "\n---\n\n"
  else if el.type = "character" then "\n        " ++ upperStr el.content ++ "\n"
  else if el.type = "dialogue" then "    " ++ el.content ++ "\n"
  else el.content ++ "\n\n"

/-- `exportPlainText` from Editor.tsx: header (the resolved title over a rule
of 40 `=` signs) followed by each element's rendering. `title` is the already
resolved `titlePage.title || script?.title || 'Untitled'`. -/
def exportPlainText (title : String) (els : List Elem) : String :=
  title ++ "\n" ++ String.mk (List.replicate 40 '=') ++ "\n\n" ++
    concatStrings (els.map plainChunk)

/-- Number of occurrences of `p` as a contiguous sublist of `s`: one per start
position at which `p` is a prefix of the remaining suffix. -/
def countOcc (p : List Char) : List Char → Nat
  | [] => if p.isEmpty then 1 else 0
  | c :: rest => (if p.isPrefixOf (c :: rest) then 1 else 0) + countOcc p rest

/-- Occurrence count on strings. -/
def countOccStr (p s : String) : Nat := countOcc p.data s.data

/-- `p` occurs contiguously inside `s`. -/
def isSubstringOf (p s : List Char) : Prop := ∃ pre post, pre ++ p ++ post = s

/-- The property claim C4 asserts of the plain-text export: every non-empty
element's content occurs in the output exactly once per element carrying that
content. -/
def exactlyOnceClaim (title : String) (els : List Elem) : Prop :=
  ∀ el ∈ els, el.content ≠ "" →
    countOccStr el.content (exportPlainText title els) =
      (els.filter (fun x => x.content = el.content)).length

/-- The content of an element as the plain-text renderer emits it: upper-cased
for scene headings and character cues, verbatim otherwise. -/
def renderedContent (el : Elem) : String :=
  if el.type = "scene-heading" ∨ el.type = "character" then upperStr el.content
  else el.content

end Hobodraft

namespace Hobodraft

/-- Claim C2: for a poetry document whose lines have last words
cat, hat, dog, log the computed rhyme scheme is AABB; for last words
light, night, day it is AAB, per the documented rhyme-key algorithm. -/
theorem C2_rhyme_scheme_examples :
    rhymeScheme ["cat", "hat", "dog", "log"] = "AABB" ∧
    rhymeScheme ["light", "night", "day"] = "AAB" := by
  decide

/-- Claim C5: for every element type in the active genre's ordered type list
and either direction, applying the Tab type-cycling step exactly as many times
as the list has types returns the type to its original value. -/
theorem C5_cycleType_totality (c : Category) (shift : Bool) (t : String)
    (ht : t ∈ (getTypeConfig c).types) :
    (cycleType c shift)^[(getTypeConfig c).types.length] t = t := by
  cases c with
  | screenplay =>
    simp only [getTypeConfig, SCREENPLAY_TYPES, List.mem_cons,
      List.not_mem_nil, or_false] at ht
    rcases ht with rfl | rfl | rfl | rfl | rfl | rfl <;> cases shift <;> decide
  | poetry =>
    simp only [getTypeConfig, POETRY_TYPES, List.mem_cons,
      List.not_mem_nil, or_false] at ht
    rcases ht with rfl | rfl | rfl | rfl | rfl <;> cases shift <;> decide
  | fiction =>
    simp only [getTypeConfig, FICTION_TYPES, List.mem_cons,
      List.not_mem_nil, or_false] at ht
    rcases ht with rfl | rfl | rfl | rfl | rfl <;> cases shift <;> decide

/-- Witness for C5 at a concrete type and direction. -/
theorem C5_cycleType_totality_witness :
    (cycleType Category.screenplay false)^[(getTypeConfig Category.screenplay).types.length]
      "action" = "action" :=
  C5_cycleType_totality Category.screenplay false "action" (by decide)

/-- Claim C9: changing an element's type changes only the type field of the
elements carrying the given id — every id and every content is preserved at
every position, and elements with a different id are entirely unchanged. -/
theorem C9_changeType_frame (els : List Elem) (elId ty : String) (i : Nat) :
    (changeType els elId ty).length = els.length ∧
    ((changeType els elId ty)[i]?).map Elem.id = (els[i]?).map Elem.id ∧
    ((changeType els elId ty)[i]?).map Elem.content = (els[i]?).map Elem.content ∧
    ((changeType els elId ty)[i]?).map Elem.type
      = (els[i]?).map (fun e => if e.id = elId then ty else e.type) := by
  refine ⟨by simp [changeType], ?_, ?_, ?_⟩ <;>
  · rw [changeType, List.getElem?_map]
    cases h : els[i]? with
    | none => rfl
    | some e => by_cases he : e.id = elId <;> simp [he]

/-- First-occurrence index is `-1` exactly when the element is absent. -/
theorem jsIndexOf_of_not_mem (l : List String) (x : String) (h : x ∉ l) :
    jsIndexOf l x = -1 := by
  induction l with
  | nil => rfl
  | cons a as ih =>
    simp only [List.mem_cons, not_or] at h
    have hne : ¬ a = x := fun hax => h.1 hax.symm
    simp [jsIndexOf, hne, ih h.2]

/-- Claim C10: pressing Tab on an element whose type is not in the genre's
type list assigns a definite type: the first type of the list when cycling
forward, and the second-to-last type when cycling backward with Shift. -/
theorem C10_tab_unknown_type (c : Category) (t : String)
    (h : t ∉ (getTypeConfig c).types) :
    cycleType c false t = (getTypeConfig c).types.headD "" ∧
    cycleType c true t
      = (getTypeConfig c).types.getD ((getTypeConfig c).types.length - 2) "" := by
  have hidx := jsIndexOf_of_not_mem _ _ h
  cases c <;>
  · simp only [getTypeConfig] at hidx
    simp only [cycleType, getTypeConfig, hidx]
    constructor <;> decide

/-- Witness for C10 at a concrete unknown type. -/
theorem C10_tab_unknown_type_witness :
    cycleType Category.screenplay false "bogus"
        = (getTypeConfig Category.screenplay).types.headD "" ∧
    cycleType Category.screenplay true "bogus"
        = (getTypeConfig Category.screenplay).types.getD
            ((getTypeConfig Category.screenplay).types.length - 2) "" :=
  C10_tab_unknown_type Category.screenplay "bogus" (by decide)

/-- With pairwise distinct element ids, filtering one id away removes at most
one element. -/
theorem length_filter_ne (els : List Elem) (eid : String)
    (hnd : (els.map Elem.id).Nodup) :
    els.length - 1 ≤ (els.filter (fun x => x.id != eid)).length := by
  induction els with
  | nil => simp
  | cons a as ih =>
    rw [List.map_cons, List.nodup_cons] at hnd
    by_cases h : a.id = eid
    · have hall : ∀ x ∈ as, (x.id != eid) = true := by
        intro x hx
        simp only [bne_iff_ne, ne_eq]
        intro he
        exact hnd.1 (h ▸ he ▸ List.mem_map_of_mem Elem.id hx)
      have hfa : (a.id != eid) = false := by simp [h]
      simp [List.filter_cons, hfa, List.filter_eq_self.mpr hall]
    · have hta : (a.id != eid) = true := by simp [h]
      have := ih hnd.2
      simp only [List.filter_cons, hta, if_true, List.length_cons]
      omega

/-- Filtering preserves distinctness of the ids. -/
theorem nodup_filter_ids (els : List Elem) (p : Elem → Bool)
    (hnd : (els.map Elem.id).Nodup) : ((els.filter p).map Elem.id).Nodup :=
  hnd.sublist ((List.filter_sublist els).map Elem.id)

/-- Claim C1: over any sequence of Backspace merge-deletes, a document with
pairwise distinct element ids never loses its last element: at least one
element always remains. -/
theorem C1_delete_never_empties (ops : List Elem) (els : List Elem)
    (hnd : (els.map Elem.id).Nodup) (hne : 1 ≤ els.length) :
    1 ≤ (ops.foldl deleteMergeEls els).length := by
  induction ops generalizing els with
  | nil => simpa using hne
  | cons op ops ih =>
    rw [List.foldl_cons]
    refine ih _ ?_ ?_
    · unfold deleteMergeEls
      split
      · exact nodup_filter_ids _ _ hnd
      · exact hnd
    · unfold deleteMergeEls
      split
      · rename_i hg
        have := length_filter_ne els op.id hnd
        omega
      · exact hne

/-- Witness for C1 on a concrete one-element document and one delete. -/
theorem C1_delete_never_empties_witness :
    1 ≤ (List.foldl deleteMergeEls [⟨"a", "action", "hi"⟩] [⟨"x", "action", ""⟩]).length :=
  C1_delete_never_empties [⟨"x", "action", ""⟩] [⟨"a", "action", "hi"⟩]
    (by decide) (by decide)

/-- With distinct ids, filtering away the id of the element at position `i`
removes exactly that position. -/
theorem filter_ne_eq_take_drop (els : List Elem) (i : Nat) (el : Elem)
    (hnd : (els.map Elem.id).Nodup) (h : els[i]? = some el) :
    els.filter (fun x => x.id != el.id) = els.take i ++ els.drop (i + 1) := by
  induction els generalizing i with
  | nil => simp at h
  | cons a as ih =>
    rw [List.map_cons, List.nodup_cons] at hnd
    cases i with
    | zero =>
      rw [List.getElem?_cons_zero, Option.some.injEq] at h
      subst h
      have hall : ∀ x ∈ as, (x.id != a.id) = true := by
        intro x hx
        simp only [bne_iff_ne, ne_eq]
        intro he
        exact hnd.1 (he ▸ List.mem_map_of_mem Elem.id hx)
      have hfa : (a.id != a.id) = false := by simp
      simp [List.filter_cons, hfa, List.filter_eq_self.mpr hall]
    | succ i =>
      rw [List.getElem?_cons_succ] at h
      have hmem : el ∈ as := by
        have hx := List.getElem?_eq_some.mp h
        exact hx.2 ▸ List.getElem_mem hx.1
      have hane : (a.id != el.id) = true := by
        simp only [bne_iff_ne, ne_eq]
        intro he
        exact hnd.1 (he ▸ List.mem_map_of_mem Elem.id hmem)
      simp [List.filter_cons, hane, ih i hnd.2 h]

/-- Claim C6: the Backspace merge-delete removes an element only when its
content is empty and the document has more than one element (and is a no-op
that leaves the state, and hence the focused element, untouched otherwise, in
particular on a one-element document); when it fires on the element at
position `index` of a document with distinct ids, exactly that position is
removed and the focus target is the element that preceded it, or the new
first element when it was at position 0. -/
theorem C6_deleteMerge (st : EditorState) (el : Elem) (index : Nat)
    (hnd : (st.elements.map Elem.id).Nodup)
    (hidx : st.elements[index]? = some el) :
    (¬ (el.content = "" ∧ 1 < st.elements.length) → backspaceKey st el index = st) ∧
    (st.elements.length = 1 → backspaceKey st el index = st) ∧
    (el.content = "" ∧ 1 < st.elements.length →
      (backspaceKey st el index).elements
          = st.elements.take index ++ st.elements.drop (index + 1) ∧
      (∀ p, index = 0 → st.elements[1]? = some p →
        (backspaceKey st el index).activeId = p.id) ∧
      (∀ p, 0 < index → st.elements[index - 1]? = some p →
        (backspaceKey st el index).activeId = p.id)) := by
  have hlt : index < st.elements.length := (List.getElem?_eq_some.mp hidx).1
  have hfe := filter_ne_eq_take_drop st.elements index el hnd hidx
  refine ⟨fun hng => ?_, fun h1 => ?_, fun hg => ?_⟩
  · rw [backspaceKey, if_neg hng]
  · rw [backspaceKey, if_neg]
    rintro ⟨-, hlen⟩
    omega
  · rw [backspaceKey, if_pos hg]
    refine ⟨hfe, fun p h0 hp => ?_, fun p h0 hp => ?_⟩
    · have harg : (max 0 ((index : Int) - 1)).toNat = 0 := by omega
      rw [hfe, harg, h0]
      simp only [List.take_zero, List.nil_append, List.getD_eq_getElem?_getD,
        List.getElem?_drop, Nat.add_zero, hp, Option.getD_some]
    · have hprev : (max 0 ((index : Int) - 1)).toNat = index - 1 := by omega
      have htk : (st.elements.take index).length = index := by
        rw [List.length_take]
        omega
      simp only [hprev, hfe, List.getD_eq_getElem?_getD]
      rw [List.getElem?_append, if_pos (by omega), List.getElem?_take,
        if_pos (by omega), hp, Option.getD_some]

/-- Witness for C6 on a concrete two-element document, deleting the empty
second element. -/
theorem C6_deleteMerge_witness :
    (backspaceKey ⟨[⟨"a", "action", "x"⟩, ⟨"b", "action", ""⟩], "b", "action"⟩
        ⟨"b", "action", ""⟩ 1).elements = [⟨"a", "action", "x"⟩] ∧
    (backspaceKey ⟨[⟨"a", "action", "x"⟩, ⟨"b", "action", ""⟩], "b", "action"⟩
        ⟨"b", "action", ""⟩ 1).activeId = "a" := by
  have H := C6_deleteMerge
    ⟨[⟨"a", "action", "x"⟩, ⟨"b", "action", ""⟩], "b", "action"⟩
    ⟨"b", "action", ""⟩ 1 (by decide) (by decide)
  obtain ⟨-, -, h3⟩ := H
  obtain ⟨he, -, hp⟩ := h3 (by decide)
  exact ⟨by rw [he]; rfl, hp ⟨"a", "action", "x"⟩ (by decide) (by decide)⟩

/-- Claim C7: on an Enter key event outside autocomplete, a new element is
created exactly when `(isTouchDevice ? shiftKey : !shiftKey)` holds; when it
fires, the new element sits immediately after the active element at `index`
(every earlier element keeps its position and every later one shifts by one),
has empty content, carries the genre successor of the active element's type
(first type of the genre when the map has no entry), and becomes the focused
active element. -/
theorem C7_enterKey (c : Category) (touch shift : Bool) (st : EditorState)
    (el : Elem) (index : Nat) (newId : String)
    (hidx : st.elements[index]? = some el) :
    ((if touch then shift else !shift) = false →
      enterKey c touch shift st el index newId = st) ∧
    ((if touch then shift else !shift) = true →
      (enterKey c touch shift st el index newId).elements.length
          = st.elements.length + 1 ∧
      (enterKey c touch shift st el index newId).elements[index + 1]?
          = some ⟨newId, nextTypeOf c el.type, ""⟩ ∧
      (∀ j, j ≤ index →
        (enterKey c touch shift st el index newId).elements[j]?
          = st.elements[j]?) ∧
      (∀ j, index < j →
        (enterKey c touch shift st el index newId).elements[j + 1]?
          = st.elements[j]?) ∧
      (enterKey c touch shift st el index newId).activeId = newId ∧
      (enterKey c touch shift st el index newId).activeType
          = nextTypeOf c el.type) := by
  have hlt : index < st.elements.length := (List.getElem?_eq_some.mp hidx).1
  constructor
  · intro hf
    rw [enterKey, hf]
    rfl
  · intro hf
    have hstep : enterKey c touch shift st el index newId =
        { elements := st.elements.take (index + 1)
            ++ ⟨newId, nextTypeOf c el.type, ""⟩ :: st.elements.drop (index + 1),
          activeId := newId,
          activeType := nextTypeOf c el.type } := by
      rw [enterKey, hf]
      rfl
    rw [hstep]
    have htk : (st.elements.take (index + 1)).length = index + 1 := by
      rw [List.length_take]
      omega
    refine ⟨?_, ?_, ?_, ?_, rfl, rfl⟩
    · simp only [List.length_append, List.length_cons, List.length_drop, htk]
      omega
    · rw [List.getElem?_append, if_neg (by omega), htk, Nat.sub_self,
        List.getElem?_cons_zero]
    · intro j hj
      rw [List.getElem?_append, if_pos (by omega), List.getElem?_take,
        if_pos (by omega)]
    · intro j hj
      rw [List.getElem?_append, if_neg (by omega), htk]
      have hk : j + 1 - (index + 1) = (j - index - 1) + 1 := by omega
      rw [hk, List.getElem?_cons_succ, List.getElem?_drop]
      congr 1
      omega

/-- Witness for C7: plain Enter on a desktop inserts a dialogue element after
a character cue. -/
theorem C7_enterKey_witness :
    (enterKey Category.screenplay false false
        ⟨[⟨"a", "character", "BOB"⟩], "a", "character"⟩
        ⟨"a", "character", "BOB"⟩ 0 "n").elements[1]?
      = some ⟨"n", "dialogue", ""⟩ := by
  have H := C7_enterKey Category.screenplay false false
    ⟨[⟨"a", "character", "BOB"⟩], "a", "character"⟩
    ⟨"a", "character", "BOB"⟩ 0 "n" (by decide)
  exact (H.2 rfl).2.1

/-- The character-type branch of `handleInput`: with a non-empty typed text,
the autocomplete state holds exactly the filtered character names. -/
theorem handleInput_char_auto (chars locs : List String) (els : List Elem)
    (elId val : String) (st : AutoState)
    (htype : (els.find? (fun e => e.id = elId)).map Elem.type = some "character")
    (hval : 0 < val.length) :
    (handleInput chars locs els elId val st).2 =
      { items := chars.filter
          (fun c => strStartsWith (lowerStr c) (lowerStr val)
            && lowerStr c != lowerStr val),
        isOpen := decide (0 < (chars.filter
          (fun c => strStartsWith (lowerStr c) (lowerStr val)
            && lowerStr c != lowerStr val)).length),
        index := 0 } := by
  simp [handleInput, htype, hval]

/-- A suggestion state whose open flag records non-emptiness of its item list
presents exactly its item list. -/
theorem visible_of_decide (items : List String) (idx : Nat) :
    visibleSuggestions ⟨items, decide (0 < items.length), idx⟩ = items := by
  cases items with
  | nil => simp [visibleSuggestions]
  | cons a rest => simp [visibleSuggestions]

/-- Claim C8: when the active element's type is the character type and the
typed text is non-empty, the presented suggestion set consists exactly of the
known character names whose lower-cased form starts with the lower-cased
typed text, excluding case-insensitive exact matches; with empty typed text
the presented set is empty and autocomplete is closed. -/
theorem C8_autocomplete (chars locs : List String) (els : List Elem)
    (elId val : String) (st : AutoState) (name : String)
    (htype : (els.find? (fun e => e.id = elId)).map Elem.type = some "character") :
    (val ≠ "" →
      (name ∈ visibleSuggestions (handleInput chars locs els elId val st).2 ↔
        name ∈ chars ∧ strStartsWith (lowerStr name) (lowerStr val) = true ∧
          lowerStr name ≠ lowerStr val)) ∧
    (val = "" →
      visibleSuggestions (handleInput chars locs els elId val st).2 = [] ∧
      (handleInput chars locs els elId val st).2.isOpen = false) := by
  constructor
  · intro hval
    have hlen : 0 < val.length := by
      rcases val with ⟨cs⟩
      cases cs with
      | nil => exact absurd rfl hval
      | cons c cs => simp [String.length]
    rw [handleInput_char_auto chars locs els elId val st htype hlen,
      visible_of_decide, List.mem_filter, Bool.and_eq_true, bne_iff_ne]
  · intro hval
    subst hval
    have hnv : ¬ ((els.find? (fun e => e.id = elId)).map Elem.type = some "character"
        ∧ 0 < ("" : String).length) := by
      rintro ⟨-, hl⟩
      simp [String.length] at hl
    have hns : ¬ ((els.find? (fun e => e.id = elId)).map Elem.type = some "scene-heading"
        ∧ 4 < ("" : String).length) := by
      rintro ⟨hh, -⟩
      rw [htype] at hh
      simp at hh
    simp [handleInput, hnv, hns, visibleSuggestions]

/-- Witness for C8 on a concrete character list and typed text. -/
theorem C8_autocomplete_witness :
    "ALICE" ∈ visibleSuggestions
        (handleInput ["ALICE", "ALBERT", "BOB"] [] [⟨"e1", "character", "Al"⟩]
          "e1" "Al" ⟨[], false, 0⟩).2 ↔
      "ALICE" ∈ ["ALICE", "ALBERT", "BOB"] ∧
        strStartsWith (lowerStr "ALICE") (lowerStr "Al") = true ∧
        lowerStr "ALICE" ≠ lowerStr "Al" :=
  (C8_autocomplete ["ALICE", "ALBERT", "BOB"] [] [⟨"e1", "character", "Al"⟩]
    "e1" "Al" ⟨[], false, 0⟩ "ALICE" (by decide)).1 (by decide)

/-- Counterexample to claim C4: the plain-text renderer upper-cases scene
headings, so the literal content of a lower-case scene heading never occurs in
the output (0 occurrences instead of 1); and contents colliding with the
header (here the word title inside the default title Untitled) occur more than
once. -/
theorem C4_export_counterexample :
    ¬ exactlyOnceClaim "Untitled" [⟨"e1", "scene-heading", "abc"⟩] ∧
    ¬ exactlyOnceClaim "Untitled" [⟨"e1", "dialogue", "title"⟩] := by
  constructor
  · intro h
    exact absurd (h ⟨"e1", "scene-heading", "abc"⟩ (by simp) (by decide)) (by decide)
  · intro h
    exact absurd (h ⟨"e1", "dialogue", "title"⟩ (by simp) (by decide)) (by decide)

/-- Occurring inside a part means occurring inside the whole. -/
theorem substring_trans (p q r : List Char) :
    isSubstringOf p q → isSubstringOf q r → isSubstringOf p r := by
  rintro ⟨a, b, rfl⟩ ⟨u, v, rfl⟩
  exact ⟨u ++ a, b ++ v, by simp [List.append_assoc]⟩

/-- Every member of a list of fragments occurs inside their concatenation. -/
theorem substring_concatStrings (s : String) (l : List String) (h : s ∈ l) :
    isSubstringOf s.data (concatStrings l).data := by
  induction l with
  | nil => simp at h
  | cons a rest ih =>
    rcases List.mem_cons.mp h with rfl | hm
    · exact ⟨[], (concatStrings rest).data, by simp [concatStrings, String.data_append]⟩
    · rcases ih hm with ⟨pre, post, heq⟩
      exact ⟨a.data ++ pre, post,
        by simp [concatStrings, String.data_append, ← heq, List.append_assoc]⟩

/-- The rendered content of an element occurs inside its plain-text chunk. -/
theorem renderedContent_sub_plainChunk (el : Elem) :
    isSubstringOf (renderedContent el).data (plainChunk el).data := by
  unfold renderedContent plainChunk
  by_cases h1 : el.type = "scene-heading"
  · simp only [h1, if_pos, true_or, if_true]
    exact ⟨("\n---\n" : String).data, ("\n---\n\n" : String).data,
      by simp [String.data_append]⟩
  · by_cases h2 : el.type = "character"
    · simp only [h1, h2, if_neg, or_true, if_true, if_false]
      exact ⟨("\n        " : String).data, ("\n" : String).data,
        by simp [String.data_append]⟩
    · have hno : ¬ (el.type = "scene-heading" ∨ el.type = "character") := by
        rintro (h | h) <;> [exact h1 h; exact h2 h]
      by_cases h3 : el.type = "dialogue"
      · simp only [h1, h2, h3, hno, if_true, if_false]
        exact ⟨("    " : String).data, ("\n" : String).data,
          by simp [String.data_append]⟩
      · simp only [h1, h2, h3, hno, if_false]
        exact ⟨[], ("\n\n" : String).data, by simp [String.data_append]⟩

/-- Claim C4 as amended: the plain-text export contains, for every non-empty
element of the document, the element's rendered content (upper-cased for
scene headings and character cues, verbatim otherwise) as a substring at
least once. -/
theorem C4_export_amended (title : String) (els : List Elem) (el : Elem)
    (hmem : el ∈ els) (hne : el.content ≠ "") :
    isSubstringOf (renderedContent el).data (exportPlainText title els).data := by
  apply substring_trans _ (plainChunk el).data _ (renderedContent_sub_plainChunk el)
  apply substring_trans _ (concatStrings (els.map plainChunk)).data _
    (substring_concatStrings _ _ (List.mem_map_of_mem plainChunk hmem))
  exact ⟨(title ++ "\n" ++ String.mk (List.replicate 40 '=') ++ "\n\n").data, [],
    by simp [exportPlainText, String.data_append]⟩

/-- Witness for the amended C4 on a concrete document. -/
theorem C4_export_amended_witness :
    isSubstringOf (renderedContent ⟨"e1", "scene-heading", "abc"⟩).data
      (exportPlainText "Untitled" [⟨"e1", "scene-heading", "abc"⟩]).data :=
  C4_export_amended "Untitled" [⟨"e1", "scene-heading", "abc"⟩]
    ⟨"e1", "scene-heading", "abc"⟩ (by simp) (by decide)

/-- Counterexample to claim C3: the source's suffix regex
`(?:[^laeiouy]es|ed|[^laeiouy]e)$` differs from the claim's documented rule
(`[^aeiouy]e$`, or `ed`/`es` preceded by a non-vowel) on three points — the
`l` exclusion before `e`, the `l` exclusion before `es`, and the
unconditional `ed` — exhibited by whale, whales and cooed. -/
theorem C3_syllables_counterexample :
    countSyllables "whale" ≠ specSyllables "whale" ∧
    countSyllables "whales" ≠ specSyllables "whales" ∧
    countSyllables "cooed" ≠ specSyllables "cooed" :=
  ⟨by decide, by decide, by decide⟩

/-- The scanning count of `/[aeiouy]{1,2}/g` matches agrees with the per-run
count: each maximal vowel run of length `l` contributes `⌈l / 2⌉` matches. -/
theorem chunk_eq_runSum (cs : List Char) : chunkCount cs = runSum cs := by
  suffices H : ∀ n (cs : List Char), cs.length ≤ n → chunkCount cs = runSum cs from
    H cs.length cs le_rfl
  intro n
  induction n with
  | zero =>
    intro cs h
    have hnil : cs = [] := List.length_eq_zero.mp (Nat.le_zero.mp h)
    subst hnil
    rfl
  | succ n ih =>
    intro cs h
    match cs with
    | [] => rfl
    | [c] => by_cases hc : isVowel c <;> simp [chunkCount, runSum, runsAux, hc]
    | c :: d :: rest =>
      have hrest2 : rest.length ≤ n := by
        simp only [List.length_cons] at h
        omega
      have hrest1 : (d :: rest).length ≤ n := by
        simp only [List.length_cons] at h ⊢
        omega
      by_cases hc : isVowel c
      · by_cases hd : isVowel d
        · have hch : chunkCount (c :: d :: rest) = 1 + chunkCount rest := by
            simp [chunkCount, hc, hd]
          rw [hch, ih rest hrest2]
          rcases hra : runsAux rest with ⟨b, ls⟩
          cases b
          · simp [runSum, runsAux, hra, hc, hd]
          · cases ls with
            | nil => simp [runSum, runsAux, hra, hc, hd]
            | cons l ls2 =>
              simp only [runSum, runsAux, hra, hc, hd, if_true, List.map_cons,
                List.sum_cons]
              omega
        · have hch : chunkCount (c :: d :: rest) = 1 + chunkCount (d :: rest) := by
            simp [chunkCount, hc, hd]
          rw [hch, ih _ hrest1]
          simp [runSum, runsAux, hc, hd]
      · have hch : chunkCount (c :: d :: rest) = chunkCount (d :: rest) := by
          simp [chunkCount, hc]
        rw [hch, ih _ hrest1]
        simp [runSum, runsAux, hc]

/-- Claim C3 as amended: `countSyllables` equals the documented heuristic once
the suffix rule reads as implemented — strip a final `es` or `e` preceded by a
character outside `[laeiouy]` (the preceding character included), or a final
`ed` unconditionally — with the counting step unchanged: one syllable per
`[aeiouy]{1,2}` match over the maximal vowel-or-y runs, minimum 1. -/
theorem C3_syllables_amended (w : String) :
    countSyllables w = specSyllablesAmended w := by
  unfold countSyllables specSyllablesAmended
  by_cases hlen : (clean w).length ≤ 3
  · simp [hlen]
  · simp only [hlen, if_false]
    have hstrip : amendedStrip (clean w) = stripSuffix (clean w) := rfl
    rw [hstrip, chunk_eq_runSum]
    generalize runSum (stripY (stripSuffix (clean w))) = m
    split <;> omega

end Hobodraft
